import Mathlib

/-!
Verification of the golden-file test helper (packages `comparator`, `differ`,
`manager`).  The Go sources are shallowly embedded: byte buffers are modelled
as `List Char`, Go strings as `String`, parsed JSON trees as the inductive
`JValue`, and Go's unordered `map[string]interface{}` as an association list
(a canonical representative of the unordered map).  Every definition mirrors
the corresponding Go function; deviations forced by the embedding are noted
in the doc comment of the definition concerned.
-/

/-! ### Character classes

`isGoSpace` models `unicode.IsSpace` (used by `strings.TrimSpace` and
`bytes.TrimSpace`); `isPerlSpace` models RE2's `\s` character class
`[\t\n\f\r ]` (used by the `\s+` regexp in the comparator). -/

/-- Model of Go `unicode.IsSpace`: the White_Space code points. -/
def isGoSpace (c : Char) : Bool :=
  c = '\t' || c = '\n' || c = (Char.ofNat 0x0B) || c = (Char.ofNat 0x0C) ||
  c = '\r' || c = ' ' || c = (Char.ofNat 0x85) || c = (Char.ofNat 0xA0) ||
  c = (Char.ofNat 0x1680) ||
  ((Char.ofNat 0x2000) ≤ c && c ≤ (Char.ofNat 0x200A)) ||
  c = (Char.ofNat 0x2028) || c = (Char.ofNat 0x2029) ||
  c = (Char.ofNat 0x202F) || c = (Char.ofNat 0x205F) || c = (Char.ofNat 0x3000)

/-- Model of RE2's `\s` class `[\t\n\f\r ]` used by the comparator's
`regexp.MustCompile("\\s+")`. -/
def isPerlSpace (c : Char) : Bool :=
  c = '\t' || c = '\n' || c = (Char.ofNat 0x0C) || c = '\r' || c = ' '

/-! ### Whitespace preprocessing (`strings.TrimSpace` + `\s+` collapse) -/

/-- Model of `strings.TrimSpace` / `bytes.TrimSpace` on a character list:
drop `unicode.IsSpace` characters from both ends. -/
def goTrim (l : List Char) : List Char :=
  ((l.dropWhile isGoSpace).reverse.dropWhile isGoSpace).reverse

/-- Worker for `collapseWS`: `inRun` records whether the previous input
character was part of a `\s` run already replaced by a single space. -/
def collapseAux : Bool → List Char → List Char
  | _, [] => []
  | inRun, c :: rest =>
    if isPerlSpace c then
      if inRun then collapseAux true rest else ' ' :: collapseAux true rest
    else c :: collapseAux false rest

/-- Model of `regexp.MustCompile("\\s+").ReplaceAllString(s, " ")`: every
maximal run of `\s` characters becomes one space. -/
def collapseWS (l : List Char) : List Char :=
  collapseAux false l

/-- Model of `Comparator.preprocessText`: when `IgnoreWhitespace` is set,
`strings.TrimSpace` then collapse `\s+` runs to a single space. -/
def preprocessChars (l : List Char) : List Char :=
  collapseWS (goTrim l)

/-! ### Differ data model (package `differ`) -/

/-- `differ.ChunkType`. -/
inductive ChunkType where
  | equal
  | delete
  | insert
  | replace
deriving DecidableEq

/-- `differ.DiffChunk`.  Go's zero value for unset offset/count fields is 0,
written explicitly in `chunkAt` below. -/
structure DiffChunk where
  type : ChunkType
  Lines : List String
  StartA : Nat
  StartB : Nat
  CountA : Nat
  CountB : Nat
deriving DecidableEq

/-- `differ.Diff`. -/
structure Diff where
  Chunks : List DiffChunk
  Equal : Bool
deriving DecidableEq

/-- `differ.DiffAlgorithm`. -/
inductive DiffAlgorithm where
  | myers
  | simple
deriving DecidableEq

/-- `differ.Options`. -/
structure DiffOptions where
  ContextLines : Nat
  ColorOutput : Bool
  ShowLineNumbers : Bool
  Algorithm : DiffAlgorithm

/-- Newline-separated segments of a character list (one more segment than
there are `\n` characters): the token stream seen by `bufio.ScanLines`
before end-of-input adjustment. -/
def splitOnNL : List Char → List (List Char)
  | [] => [[]]
  | c :: rest =>
    if c = '\n' then [] :: splitOnNL rest
    else
      match splitOnNL rest with
      | [] => [[c]]
      | l :: ls => (c :: l) :: ls

/-- `bufio.ScanLines` drops one trailing carriage return from each token. -/
def dropTrailingCR (l : List Char) : List Char :=
  match l.getLast? with
  | some '\r' => l.dropLast
  | _ => l

/-- Model of `Differ.splitLines`: empty input yields the empty sequence;
otherwise the `bufio.ScanLines` tokens (split on `\n`, one trailing `\r`
stripped per token, no empty final token when the buffer ends in `\n`),
plus one synthetic empty line when the buffer does not end in a newline. -/
def splitLines (data : List Char) : List String :=
  if data.isEmpty then []
  else if data.getLast? = some '\n' then
    ((splitOnNL data).dropLast).map (fun l => String.mk (dropTrailingCR l))
  else (splitOnNL data).map (fun l => String.mk (dropTrailingCR l)) ++ [""]

/-- One iteration of the `Differ.simpleDiff` loop at index `i`. -/
def chunkAt (expected actual : List String) (i : Nat) : DiffChunk :=
  if expected.length ≤ i then
    { type := ChunkType.insert, Lines := [actual.getD i ""],
      StartA := 0, StartB := i, CountA := 0, CountB := 1 }
  else if actual.length ≤ i then
    { type := ChunkType.delete, Lines := [expected.getD i ""],
      StartA := i, StartB := 0, CountA := 1, CountB := 0 }
  else if expected.getD i "" = actual.getD i "" then
    { type := ChunkType.equal, Lines := [expected.getD i ""],
      StartA := i, StartB := i, CountA := 1, CountB := 1 }
  else
    { type := ChunkType.replace, Lines := [expected.getD i "", actual.getD i ""],
      StartA := i, StartB := i, CountA := 1, CountB := 1 }

/-- Model of `Differ.simpleDiff`: the loop walks `i` from `0` to
`max len(expected) len(actual) - 1`, appending one chunk per index; the
`Equal` flag stays `true` iff every iteration took the equal-lines branch. -/
def simpleDiff (expected actual : List String) : Diff :=
  let maxLen := max expected.length actual.length
  { Chunks := (List.range maxLen).map (chunkAt expected actual)
    Equal := (List.range maxLen).all
      (fun i => (chunkAt expected actual i).type == ChunkType.equal) }

/-- `Differ.myersDiff` falls back to `simpleDiff` (per the source TODO). -/
def myersDiff (expected actual : List String) : Diff :=
  simpleDiff expected actual

/-- Model of the method `Differ.Diff`: split both buffers into lines and
dispatch on the configured algorithm (the `default` arm of the Go switch
also runs `simpleDiff`). -/
def diffOf (opts : DiffOptions) (expected actual : List Char) : Diff :=
  let expectedLines := splitLines expected
  let actualLines := splitLines actual
  match opts.Algorithm with
  | DiffAlgorithm.myers => myersDiff expectedLines actualLines
  | DiffAlgorithm.simple => simpleDiff expectedLines actualLines

/-- `fmt` verb `%4d`: right-align the decimal rendering in width 4. -/
def pad4 (n : Nat) : String :=
  let s := toString n
  String.mk (List.replicate (4 - s.length) ' ') ++ s

/-- `Differ.formatEqualChunk`. -/
def formatEqualChunk (opts : DiffOptions) (chunk : DiffChunk) : String :=
  String.join (chunk.Lines.enum.map (fun p =>
    let lineNum := chunk.StartA + p.1 + 1
    if opts.ShowLineNumbers then " " ++ pad4 lineNum ++ "  " ++ p.2 ++ "\n"
    else "  " ++ p.2 ++ "\n"))

/-- `Differ.writeDeleteLine`. -/
def writeDeleteLine (opts : DiffOptions) (line : String) (lineNum : Nat) : String :=
  if opts.ColorOutput && opts.ShowLineNumbers then
    "\x1b[31m-" ++ pad4 lineNum ++ "  " ++ line ++ "\x1b[0m\n"
  else if opts.ColorOutput then "\x1b[31m- " ++ line ++ "\x1b[0m\n"
  else if opts.ShowLineNumbers then "-" ++ pad4 lineNum ++ "  " ++ line ++ "\n"
  else "- " ++ line ++ "\n"

/-- `Differ.writeInsertLine`. -/
def writeInsertLine (opts : DiffOptions) (line : String) (lineNum : Nat) : String :=
  if opts.ColorOutput && opts.ShowLineNumbers then
    "\x1b[32m+" ++ pad4 lineNum ++ "  " ++ line ++ "\x1b[0m\n"
  else if opts.ColorOutput then "\x1b[32m+ " ++ line ++ "\x1b[0m\n"
  else if opts.ShowLineNumbers then "+" ++ pad4 lineNum ++ "  " ++ line ++ "\n"
  else "+ " ++ line ++ "\n"

/-- `Differ.formatDeleteChunk`. -/
def formatDeleteChunk (opts : DiffOptions) (chunk : DiffChunk) : String :=
  String.join (chunk.Lines.enum.map (fun p =>
    writeDeleteLine opts p.2 (chunk.StartA + p.1 + 1)))

/-- `Differ.formatInsertChunk`. -/
def formatInsertChunk (opts : DiffOptions) (chunk : DiffChunk) : String :=
  String.join (chunk.Lines.enum.map (fun p =>
    writeInsertLine opts p.2 (chunk.StartB + p.1 + 1)))

/-- `Differ.formatReplaceChunk`: the expected line as a delete line followed
by the actual line as an insert line, both at display number `StartA + 1`. -/
def formatReplaceChunk (opts : DiffOptions) (chunk : DiffChunk) : String :=
  writeDeleteLine opts (chunk.Lines.getD 0 "") (chunk.StartA + 1) ++
  writeInsertLine opts (chunk.Lines.getD 1 "") (chunk.StartA + 1)

/-- Model of `Differ.Format`: empty string for an equal diff, otherwise the
concatenation of each chunk's rendering. -/
def Format (opts : DiffOptions) (diff : Diff) : String :=
  if diff.Equal then ""
  else String.join (diff.Chunks.map (fun chunk =>
    match chunk.type with
    | ChunkType.equal => formatEqualChunk opts chunk
    | ChunkType.delete => formatDeleteChunk opts chunk
    | ChunkType.insert => formatInsertChunk opts chunk
    | ChunkType.replace => formatReplaceChunk opts chunk))

/-- Chunk re-derivation, expected side (spec data model: Equal and Delete
chunks carry one expected line, Replace carries expected-then-actual,
Insert contributes nothing to the expected side). -/
def chunkLinesA (c : DiffChunk) : List String :=
  match c.type with
  | ChunkType.equal => c.Lines
  | ChunkType.delete => c.Lines
  | ChunkType.insert => []
  | ChunkType.replace => c.Lines.take 1

/-- Chunk re-derivation, actual side. -/
def chunkLinesB (c : DiffChunk) : List String :=
  match c.type with
  | ChunkType.equal => c.Lines
  | ChunkType.delete => []
  | ChunkType.insert => c.Lines
  | ChunkType.replace => c.Lines.drop 1

/-! ### Comparator data model (package `comparator`) -/

/-- Parsed JSON value as produced by `json.Unmarshal` into `interface{}`:
`nil`, `bool`, `float64`, `string`, `[]interface{}`, `map[string]interface{}`.
JSON numbers (Go `float64`) are modelled as integers (the claims under
verification do not involve non-integral numerics; `%v` below renders them
the way Go renders integral `float64` values).  An object is modelled as an
association list, the canonical representative of Go's unordered map. -/
inductive JValue where
  | null
  | bool (b : Bool)
  | num (n : Int)
  | str (s : String)
  | arr (elems : List JValue)
  | obj (fields : List (String × JValue))

/-- Go string comparison `a < b` (byte-wise lexicographic on the UTF-8
encoding, equivalently code-point-wise lexicographic), as a computable
Boolean on character lists. -/
def charListLt : List Char → List Char → Bool
  | [], [] => false
  | [], _ :: _ => true
  | _ :: _, [] => false
  | a :: as, b :: bs =>
    if a.toNat < b.toNat then true
    else if b.toNat < a.toNat then false
    else charListLt as bs

/-- Go string comparison on `String`. -/
def goStrLt (a b : String) : Bool := charListLt a.toList b.toList

/-- Key order used by `fmt` when printing a map (`fmtsort` sorts string keys
ascending): `p` precedes `q` when `q`'s key is not below `p`'s. -/
def keyLE (p q : String × String) : Prop := goStrLt q.1 p.1 = false

instance : DecidableRel keyLE := fun p q =>
  inferInstanceAs (Decidable (goStrLt q.1 p.1 = false))

mutual
/-- Model of `fmt.Sprintf("%v", v)` on an unmarshalled JSON value, as used by
`Comparator.compareValues`: `nil` prints `<nil>`, booleans `true`/`false`,
integral numbers their decimal digits, strings verbatim, slices
`[elem elem ...]`, maps `map[k:v k:v ...]` with keys sorted. -/
def goFormat : JValue → String
  | JValue.null => "<nil>"
  | JValue.bool b => if b then "true" else "false"
  | JValue.num n => toString n
  | JValue.str s => s
  | JValue.arr xs => "[" ++ " ".intercalate (goFormatList xs) ++ "]"
  | JValue.obj fs =>
    "map[" ++ " ".intercalate
      ((List.insertionSort keyLE (goFormatFields fs)).map
        (fun p => p.1 ++ ":" ++ p.2)) ++ "]"

/-- `%v` of each element of a slice. -/
def goFormatList : List JValue → List String
  | [] => []
  | x :: xs => goFormat x :: goFormatList xs

/-- `%v` of each value of a map, keeping the key. -/
def goFormatFields : List (String × JValue) → List (String × String)
  | [] => []
  | (k, v) :: fs => (k, goFormat v) :: goFormatFields fs
end

/-- Model of `Comparator.compareValues`: three-way comparison of the `%v`
renderings (`-1` below, `1` above, `0` for equal strings). -/
def compareValues (a b : JValue) : Int :=
  if goStrLt (goFormat a) (goFormat b) then -1
  else if goStrLt (goFormat b) (goFormat a) then 1
  else 0

/-- The non-strict order "`compareValues b a` is not negative", i.e. the
negation of `sort.Slice`'s less function `compareValues i j < 0` with the
arguments swapped: every legitimate `sort.Slice` output is sorted by it. -/
def reprLE (a b : JValue) : Prop := goStrLt (goFormat b) (goFormat a) = false

instance : DecidableRel reprLE := fun a b =>
  inferInstanceAs (Decidable (goStrLt (goFormat b) (goFormat a) = false))

/-- `comparator.Options`. -/
structure COptions where
  IgnoreOrder : Bool
  IgnoreWhitespace : Bool
  CustomCompareFunc : Option (List Char → List Char → Bool)
  IgnoreFields : List String

/-- `comparator.CompareResult`.  The Go `Details` strings for parse failures
carry the unmarshal error text after the fixed message; the model keeps only
the fixed message. -/
structure CompareResult where
  Equal : Bool
  Details : String
deriving DecidableEq

/-- Model of `Comparator.shouldIgnoreField`: linear scan of `IgnoreFields`. -/
def shouldIgnoreField (opts : COptions) (field : String) : Bool :=
  opts.IgnoreFields.contains field

/-- Model of `Comparator.normalizeString`: `strings.TrimSpace` followed by
collapsing `\s+` runs to one space, when `IgnoreWhitespace` is set. -/
def normalizeString (opts : COptions) (s : String) : String :=
  if opts.IgnoreWhitespace then String.mk (preprocessChars s.toList) else s

/-- Model of `Comparator.preprocessText` (same body as `normalizeString` in
the source). -/
def preprocessText (opts : COptions) (s : String) : String :=
  if opts.IgnoreWhitespace then String.mk (preprocessChars s.toList) else s

mutual
/-- Model of `Comparator.normalizeValue`.  In the array case the body of
`Comparator.normalizeArray` (normalize every element, then sort by the
`compareValues` order when `IgnoreOrder` is set) is written inline so that
the mutual recursion is structural; the wrapper `normalizeArray` below
restates it under the source's name.  Go's `sort.Slice` is unstable; the
model uses the stable insertion sort — one of the results `sort.Slice` may
legitimately produce — as the deterministic representative. -/
def normalizeValue (opts : COptions) : JValue → JValue
  | JValue.null => JValue.null
  | JValue.bool b => JValue.bool b
  | JValue.num n => JValue.num n
  | JValue.str s => JValue.str (normalizeString opts s)
  | JValue.arr xs =>
    JValue.arr (if opts.IgnoreOrder
      then List.insertionSort reprLE (normalizeElems opts xs)
      else normalizeElems opts xs)
  | JValue.obj fs => JValue.obj (normalizeObject opts fs)

/-- The element loop inside `Comparator.normalizeArray`. -/
def normalizeElems (opts : COptions) : List JValue → List JValue
  | [] => []
  | x :: xs => normalizeValue opts x :: normalizeElems opts xs

/-- Model of `Comparator.normalizeObject`: drop ignored keys, normalize the
remaining values (the association list stands for the rebuilt Go map). -/
def normalizeObject (opts : COptions) :
    List (String × JValue) → List (String × JValue)
  | [] => []
  | (k, v) :: fs =>
    if shouldIgnoreField opts k then normalizeObject opts fs
    else (k, normalizeValue opts v) :: normalizeObject opts fs
end

/-- Model of `Comparator.normalizeArray` (the array case of
`normalizeValue`, see there). -/
def normalizeArray (opts : COptions) (xs : List JValue) : List JValue :=
  let normalized := normalizeElems opts xs
  if opts.IgnoreOrder then List.insertionSort reprLE normalized else normalized

mutual
/-- Model of `reflect.DeepEqual` on unmarshalled JSON values: structural
equality; two maps are `DeepEqual` iff they have the same key set with
`DeepEqual` values, which on the canonical association-list representative
is field-wise equality. -/
def deepEqual : JValue → JValue → Bool
  | JValue.null, JValue.null => true
  | JValue.bool a, JValue.bool b => a == b
  | JValue.num a, JValue.num b => a == b
  | JValue.str a, JValue.str b => a == b
  | JValue.arr a, JValue.arr b => deepEqualList a b
  | JValue.obj a, JValue.obj b => deepEqualFields a b
  | _, _ => false

/-- `reflect.DeepEqual` on slices: same length, pointwise `DeepEqual`. -/
def deepEqualList : List JValue → List JValue → Bool
  | [], [] => true
  | x :: xs, y :: ys => deepEqual x y && deepEqualList xs ys
  | _, _ => false

/-- `reflect.DeepEqual` on map representatives: field-wise equality. -/
def deepEqualFields : List (String × JValue) → List (String × JValue) → Bool
  | [], [] => true
  | (k1, v1) :: fs1, (k2, v2) :: fs2 =>
    k1 == k2 && deepEqual v1 v2 && deepEqualFields fs1 fs2
  | _, _ => false
end

/-- Model of `Comparator.isJSON`: `bytes.TrimSpace`, then nonempty with
first byte `{` or `[`. -/
def isJSON (data : List Char) : Bool :=
  match goTrim data with
  | [] => false
  | first :: _ => first == '{' || first == '['

/-- Model of `Comparator.compareJSON`.  `json.Unmarshal` belongs to the Go
standard library (outside this repository) and is abstracted as a `parse`
function that returns `none` exactly when unmarshalling fails. -/
def compareJSON (parse : List Char → Option JValue) (opts : COptions)
    (expected actual : List Char) : CompareResult :=
  match parse expected with
  | none => { Equal := false, Details := "Failed to parse expected JSON" }
  | some expectedObj =>
    match parse actual with
    | none => { Equal := false, Details := "Failed to parse actual JSON" }
    | some actualObj =>
      { Equal := deepEqual (normalizeValue opts expectedObj)
          (normalizeValue opts actualObj)
        Details := "JSON semantic comparison" }

/-- Model of `Comparator.compareText`. -/
def compareText (opts : COptions) (expected actual : List Char) : CompareResult :=
  let expectedStr := preprocessText opts (String.mk expected)
  let actualStr := preprocessText opts (String.mk actual)
  { Equal := expectedStr == actualStr
    Details := "Text comparison with preprocessing" }

/-- Model of `Comparator.Compare`: custom override first, then the JSON path
when both sides look JSON-shaped, otherwise the text path. -/
def Compare (parse : List Char → Option JValue) (opts : COptions)
    (expected actual : List Char) : CompareResult :=
  match opts.CustomCompareFunc with
  | some f =>
    { Equal := f expected actual, Details := "Custom comparison function" }
  | none =>
    if isJSON expected && isJSON actual then compareJSON parse opts expected actual
    else compareText opts expected actual

/-- The comparison verdict on two successfully parsed JSON values: the
`Equal` field `compareJSON` computes after parsing. -/
def jsonVerdict (opts : COptions) (e a : JValue) : Bool :=
  deepEqual (normalizeValue opts e) (normalizeValue opts a)

/-- One-hole context over JSON values: states "at any nesting depth" claims
about normalization. -/
inductive JCtx where
  | hole
  | arrCtx (before : List JValue) (c : JCtx) (after : List JValue)
  | objCtx (before : List (String × JValue)) (key : String) (c : JCtx)
      (after : List (String × JValue))

/-- Plug a value into a one-hole context. -/
def JCtx.fill : JCtx → JValue → JValue
  | JCtx.hole, v => v
  | JCtx.arrCtx b c a, v => JValue.arr (b ++ c.fill v :: a)
  | JCtx.objCtx b k c a, v => JValue.obj (b ++ (k, c.fill v) :: a)

/-! ### Manager naming strategy (package `manager`) -/

/-- The `.go` suffix trimmed by `DefaultNaming.GenerateFilename`. -/
def goExt : List Char := ['.', 'g', 'o']

/-- Model of `strings.TrimSuffix(testFile, ".go")`. -/
def trimSuffixGo (f : List Char) : List Char :=
  if goExt.isSuffixOf f then f.take (f.length - 3) else f

/-- Model of `DefaultNaming.GenerateFilename`:
`fmt.Sprintf("%s_%s_%s.golden", baseFile, testFunc, goldenName)` after
trimming the `.go` extension. -/
def GenerateFilename (testFile testFunc goldenName : List Char) : List Char :=
  trimSuffixGo testFile ++ '_' :: testFunc ++ '_' :: goldenName ++ ".golden".toList

-- ===== DEFINITIONS END / THEOREMS BEGIN =====

/-! ### Whitespace lemmas -/

theorem isPerlSpace_goSpace {c : Char} (h : isPerlSpace c = true) :
    isGoSpace c = true := by
  simp only [isPerlSpace, Bool.or_eq_true, decide_eq_true_eq] at h
  simp only [isGoSpace, Bool.or_eq_true, decide_eq_true_eq]
  tauto

theorem dropWhile_eq_self_of_head {p : Char → Bool} :
    ∀ {l : List Char}, (∀ c, l.head? = some c → p c = false) →
      l.dropWhile p = l := by
  intro l h
  cases l with
  | nil => rfl
  | cons x xs =>
    have hx : p x = false := h x rfl
    simp [List.dropWhile, hx]

theorem head_dropWhile_false {p : Char → Bool} :
    ∀ (l : List Char) (c : Char), (l.dropWhile p).head? = some c → p c = false := by
  intro l
  induction l with
  | nil => intro c h; simp [List.dropWhile] at h
  | cons x xs ih =>
    intro c h
    by_cases hx : p x = true
    · simp [List.dropWhile, hx] at h
      exact ih c (by simpa [List.dropWhile] using h)
    · simp only [Bool.not_eq_true] at hx
      simp [List.dropWhile, hx] at h
      subst h; exact hx

theorem dropWhile_idem (p : Char → Bool) (l : List Char) :
    (l.dropWhile p).dropWhile p = l.dropWhile p :=
  dropWhile_eq_self_of_head (fun c hc => head_dropWhile_false l c hc)

/-- `goTrim` output never starts with a Go space character. -/
theorem goTrim_head {l : List Char} {c : Char} (h : (goTrim l).head? = some c) :
    isGoSpace c = false := by
  have key : ∃ t, goTrim l ++ t = l.dropWhile isGoSpace := by
    rcases List.dropWhile_suffix (l := (l.dropWhile isGoSpace).reverse) isGoSpace
      with ⟨t, ht⟩
    refine ⟨t.reverse, ?_⟩
    unfold goTrim
    rw [← List.reverse_append, ht, List.reverse_reverse]
  rcases key with ⟨t, ht⟩
  rcases hg : goTrim l with _ | ⟨x, xs⟩
  · rw [hg] at h; simp at h
  · rw [hg] at h ht
    simp only [List.head?_cons, Option.some.injEq] at h
    subst h
    exact head_dropWhile_false l x (by rw [← ht]; rfl)

/-- `goTrim` output never ends with a Go space character. -/
theorem goTrim_last {l : List Char} {c : Char} (h : (goTrim l).getLast? = some c) :
    isGoSpace c = false := by
  unfold goTrim at h
  rw [← List.head?_reverse, List.reverse_reverse] at h
  exact head_dropWhile_false _ c h

theorem goTrim_eq_self {l : List Char}
    (hh : ∀ c, l.head? = some c → isGoSpace c = false)
    (hl : ∀ c, l.getLast? = some c → isGoSpace c = false) :
    goTrim l = l := by
  unfold goTrim
  rw [dropWhile_eq_self_of_head hh]
  rw [dropWhile_eq_self_of_head (by
    intro c hc
    rw [List.head?_reverse] at hc
    exact hl c hc)]
  exact List.reverse_reverse l

theorem goTrim_idem (l : List Char) : goTrim (goTrim l) = goTrim l :=
  goTrim_eq_self (fun _ hc => goTrim_head hc) (fun _ hc => goTrim_last hc)

/-- Unfolding equation for `collapseAux` at a `\s` character, in-run state. -/
theorem collapseAux_space_true {c : Char} (hc : isPerlSpace c = true)
    (t : List Char) : collapseAux true (c :: t) = collapseAux true t := by
  simp [collapseAux, hc]

/-- Unfolding equation for `collapseAux` at a `\s` character, fresh state. -/
theorem collapseAux_space_false {c : Char} (hc : isPerlSpace c = true)
    (t : List Char) : collapseAux false (c :: t) = ' ' :: collapseAux true t := by
  simp [collapseAux, hc]

/-- Unfolding equation for `collapseAux` at a non-`\s` character. -/
theorem collapseAux_nonspace {c : Char} (hc : isPerlSpace c = false)
    (b : Bool) (t : List Char) :
    collapseAux b (c :: t) = c :: collapseAux false t := by
  simp [collapseAux, hc]

theorem collapseAux_idem : ∀ (l : List Char) (b : Bool),
    collapseAux b (collapseAux b l) = collapseAux b l := by
  intro l
  induction l with
  | nil => intro b; rfl
  | cons c rest ih =>
    intro b
    by_cases hc : isPerlSpace c = true
    · cases b with
      | true => rw [collapseAux_space_true hc, ih true]
      | false =>
        rw [collapseAux_space_false hc,
          collapseAux_space_false (by decide : isPerlSpace ' ' = true), ih true]
    · simp only [Bool.not_eq_true] at hc
      rw [collapseAux_nonspace hc, collapseAux_nonspace hc, ih false]

theorem collapseWS_idem (l : List Char) : collapseWS (collapseWS l) = collapseWS l :=
  collapseAux_idem l false

/-- `collapseAux` preserves a non-`\s` head character. -/
theorem collapseAux_head {c : Char} (hc : isPerlSpace c = false)
    (rest : List Char) (b : Bool) :
    (collapseAux b (c :: rest)).head? = some c := by
  rw [collapseAux_nonspace hc]; rfl

/-- `collapseAux` preserves a non-`\s` last character. -/
theorem collapseAux_last : ∀ (l : List Char) (c : Char) (b : Bool),
    l.getLast? = some c → isPerlSpace c = false →
    (collapseAux b l).getLast? = some c := by
  intro l
  induction l with
  | nil => intro c b h _; simp at h
  | cons x xs ih =>
    intro c b h hc
    cases xs with
    | nil =>
      simp only [List.getLast?_singleton, Option.some.injEq] at h
      subst h
      rw [collapseAux_nonspace hc]
      rfl
    | cons y ys =>
      have hlast : (y :: ys).getLast? = some c := by
        rw [List.getLast?_cons_cons] at h; exact h
      by_cases hx : isPerlSpace x = true
      · have h1 := ih c true hlast hc
        have hne : collapseAux true (y :: ys) ≠ [] := by
          intro hnil; rw [hnil] at h1; simp at h1
        cases b with
        | true => rw [collapseAux_space_true hx]; exact h1
        | false =>
          rw [collapseAux_space_false hx]
          rcases hcc : collapseAux true (y :: ys) with _ | ⟨z, zs⟩
          · exact absurd hcc hne
          · rw [List.getLast?_cons_cons, ← hcc]; exact h1
      · simp only [Bool.not_eq_true] at hx
        have h1 := ih c false hlast hc
        have hne : collapseAux false (y :: ys) ≠ [] := by
          intro hnil; rw [hnil] at h1; simp at h1
        rw [collapseAux_nonspace hx]
        rcases hcc : collapseAux false (y :: ys) with _ | ⟨z, zs⟩
        · exact absurd hcc hne
        · rw [List.getLast?_cons_cons, ← hcc]; exact h1

/-- The composite preprocessing (trim, then collapse) is idempotent. -/
theorem preprocessChars_idem (l : List Char) :
    preprocessChars (preprocessChars l) = preprocessChars l := by
  unfold preprocessChars
  have htrim : goTrim (collapseWS (goTrim l)) = collapseWS (goTrim l) := by
    apply goTrim_eq_self
    · intro c hc
      rcases hg : goTrim l with _ | ⟨x, xs⟩
      · rw [hg] at hc; simp [collapseWS, collapseAux] at hc
      · have hx : isGoSpace x = false := goTrim_head (by rw [hg]; rfl)
        have hxp : isPerlSpace x = false := by
          cases hp : isPerlSpace x with
          | false => rfl
          | true => rw [isPerlSpace_goSpace hp] at hx; cases hx
        rw [hg] at hc
        unfold collapseWS at hc
        rw [collapseAux_head hxp xs false] at hc
        cases hc
        exact hx
    · intro c hc
      have hne : goTrim l ≠ [] := by
        intro hnil
        rw [hnil] at hc
        simp [collapseWS, collapseAux] at hc
      obtain ⟨d, hd⟩ : ∃ d, (goTrim l).getLast? = some d :=
        ⟨(goTrim l).getLast hne, List.getLast?_eq_getLast _ hne⟩
      have hgo : isGoSpace d = false := goTrim_last hd
      have hperl : isPerlSpace d = false := by
        cases hp : isPerlSpace d with
        | false => rfl
        | true => rw [isPerlSpace_goSpace hp] at hgo; cases hgo
      unfold collapseWS at hc
      rw [collapseAux_last (goTrim l) d false hd hperl] at hc
      cases hc
      exact hgo
  rw [htrim, collapseWS_idem]
/-! ### Differ lemmas -/

theorem chunkLinesA_in {e a : List String} {s : Nat} (hs : s < e.length) :
    chunkLinesA (chunkAt e a s) = [e.getD s ""] := by
  unfold chunkAt chunkLinesA
  rw [if_neg (by omega)]
  split_ifs with h1 h2 <;> rfl

theorem chunkLinesA_out {e a : List String} {s : Nat} (hs : e.length ≤ s) :
    chunkLinesA (chunkAt e a s) = [] := by
  unfold chunkAt chunkLinesA
  rw [if_pos hs]

theorem chunkLinesB_in {e a : List String} {s : Nat} (hs : s < a.length) :
    chunkLinesB (chunkAt e a s) = [a.getD s ""] := by
  unfold chunkAt chunkLinesB
  split_ifs with h1 h2 h3
  · rfl
  · omega
  · rw [h3]
  · rfl

theorem chunkLinesB_out {e a : List String} {s : Nat} (hs : a.length ≤ s)
    (hs2 : s < e.length) : chunkLinesB (chunkAt e a s) = [] := by
  unfold chunkAt chunkLinesB
  rw [if_neg (by omega), if_pos hs]

theorem flatMapA_range' (e a : List String) : ∀ (n s : Nat), s + n ≤ e.length →
    (((List.range' s n).map (chunkAt e a)).flatMap chunkLinesA)
      = (List.range' s n).map (fun j => e.getD j "") := by
  intro n
  induction n with
  | zero => intro s _; rfl
  | succ n ih =>
    intro s h
    rw [List.range'_succ]
    simp only [List.map_cons, List.flatMap_cons]
    rw [chunkLinesA_in (by omega), ih (s + 1) (by omega)]
    rfl

theorem flatMapB_range' (e a : List String) : ∀ (n s : Nat), s + n ≤ a.length →
    (((List.range' s n).map (chunkAt e a)).flatMap chunkLinesB)
      = (List.range' s n).map (fun j => a.getD j "") := by
  intro n
  induction n with
  | zero => intro s _; rfl
  | succ n ih =>
    intro s h
    rw [List.range'_succ]
    simp only [List.map_cons, List.flatMap_cons]
    rw [chunkLinesB_in (by omega), ih (s + 1) (by omega)]
    rfl

theorem reconA_range' (e a : List String) : ∀ (n s : Nat), e.length ≤ s + n →
    s + n ≤ max e.length a.length →
    (((List.range' s n).map (chunkAt e a)).flatMap chunkLinesA) = e.drop s := by
  intro n
  induction n with
  | zero =>
    intro s h _
    exact (List.drop_eq_nil_of_le (by omega)).symm
  | succ n ih =>
    intro s h hmax
    rw [List.range'_succ]
    simp only [List.map_cons, List.flatMap_cons]
    by_cases hse : e.length ≤ s
    · rw [chunkLinesA_out hse, ih (s + 1) (by omega) (by omega)]
      rw [List.drop_eq_nil_of_le (by omega), List.drop_eq_nil_of_le (by omega)]
      rfl
    · push_neg at hse
      rw [chunkLinesA_in hse, ih (s + 1) (by omega) (by omega)]
      rw [List.getD_eq_getElem e "" hse]
      exact List.getElem_cons_drop e s hse

theorem reconB_range' (e a : List String) : ∀ (n s : Nat), a.length ≤ s + n →
    s + n ≤ max e.length a.length →
    (((List.range' s n).map (chunkAt e a)).flatMap chunkLinesB) = a.drop s := by
  intro n
  induction n with
  | zero =>
    intro s h _
    exact (List.drop_eq_nil_of_le (by omega)).symm
  | succ n ih =>
    intro s h hmax
    rw [List.range'_succ]
    simp only [List.map_cons, List.flatMap_cons]
    by_cases hsa : a.length ≤ s
    · have hse : s < e.length := by omega
      rw [chunkLinesB_out hsa hse, ih (s + 1) (by omega) (by omega)]
      rw [List.drop_eq_nil_of_le (by omega), List.drop_eq_nil_of_le (by omega)]
      rfl
    · push_neg at hsa
      rw [chunkLinesB_in hsa, ih (s + 1) (by omega) (by omega)]
      rw [List.getD_eq_getElem a "" hsa]
      exact List.getElem_cons_drop a s hsa

theorem chunkAt_countA_pos {e a : List String} {i : Nat}
    (h : 0 < (chunkAt e a i).CountA) :
    i < e.length ∧ (chunkAt e a i).StartA = i := by
  unfold chunkAt at h ⊢
  split_ifs at h ⊢ with h1 h2 h3
  · simp at h
  · exact ⟨by omega, rfl⟩
  · exact ⟨by omega, rfl⟩
  · exact ⟨by omega, rfl⟩

theorem chunkAt_countB_pos {e a : List String} {i : Nat}
    (hc : i < max e.length a.length) (h : 0 < (chunkAt e a i).CountB) :
    i < a.length ∧ (chunkAt e a i).StartB = i := by
  have hor : i < e.length ∨ i < a.length := lt_max_iff.mp hc
  unfold chunkAt at h ⊢
  split_ifs at h ⊢ with h1 h2 h3
  · exact ⟨by omega, rfl⟩
  · simp at h
  · exact ⟨by omega, rfl⟩
  · exact ⟨by omega, rfl⟩

theorem simpleDiff_self_equal (L : List String) : (simpleDiff L L).Equal = true := by
  unfold simpleDiff
  simp only [max_self]
  rw [List.all_eq_true]
  intro i hi
  rw [List.mem_range] at hi
  unfold chunkAt
  rw [if_neg (by omega), if_neg (by omega), if_pos rfl]
  rfl
/-! ### Claim theorems: differ -/

/-- C1 (counterexample): for golden text lines `a`, `b`, `c` and actual text
lines `a`, `c`, the positional diff does NOT produce a Delete chunk for line
`"b"` together with two Equal chunks: the index-aligned walk instead replaces
`"b"` with `"c"` at index 1 and deletes `"c"` at index 2. -/
theorem c1_counterexample :
    ¬ (((simpleDiff (splitLines "a\nb\nc\n".toList)
          (splitLines "a\nc\n".toList)).Chunks.any
            (fun c => c.type == ChunkType.delete && c.Lines == ["b"]) = true) ∧
       ((simpleDiff (splitLines "a\nb\nc\n".toList)
          (splitLines "a\nc\n".toList)).Chunks.countP
            (fun c => c.type == ChunkType.equal) = 2) ∧
       ((simpleDiff (splitLines "a\nb\nc\n".toList)
          (splitLines "a\nc\n".toList)).Equal = false)) := by
  decide

/-- C1 (amended): for golden content of the three text lines `a`, `b`, `c`
and actual content of the two text lines `a`, `c`, the diff computation
produces an Equal chunk for line `"a"`, a Replace chunk carrying `"b"` then
`"c"`, and a Delete chunk for line `"c"`, and the overall equality flag is
false. -/
theorem c1_diff_example :
    simpleDiff (splitLines "a\nb\nc\n".toList) (splitLines "a\nc\n".toList) =
      { Chunks := [
          { type := ChunkType.equal, Lines := ["a"],
            StartA := 0, StartB := 0, CountA := 1, CountB := 1 },
          { type := ChunkType.replace, Lines := ["b", "c"],
            StartA := 1, StartB := 1, CountA := 1, CountB := 1 },
          { type := ChunkType.delete, Lines := ["c"],
            StartA := 2, StartB := 0, CountA := 1, CountB := 0 }],
        Equal := false } := by
  decide

/-- C4: for every pair of line sequences, concatenating the chunks of the
diff in order reproduces the expected sequence (expected-side lines) and the
actual sequence (actual-side lines) exactly, and each chunk's recorded start
offset equals the number of same-side lines re-derived from the chunks
before it. -/
theorem c4_simpleDiff_reconstruction (e a : List String) :
    (((simpleDiff e a).Chunks.flatMap chunkLinesA) = e) ∧
    (((simpleDiff e a).Chunks.flatMap chunkLinesB) = a) ∧
    (∀ i, (h : i < (simpleDiff e a).Chunks.length) →
      (0 < ((simpleDiff e a).Chunks[i]).CountA →
        ((simpleDiff e a).Chunks[i]).StartA
          = (((simpleDiff e a).Chunks.take i).flatMap chunkLinesA).length) ∧
      (0 < ((simpleDiff e a).Chunks[i]).CountB →
        ((simpleDiff e a).Chunks[i]).StartB
          = (((simpleDiff e a).Chunks.take i).flatMap chunkLinesB).length)) := by
  refine ⟨?_, ?_, ?_⟩
  · show (((List.range (max e.length a.length)).map (chunkAt e a)).flatMap
      chunkLinesA) = e
    rw [List.range_eq_range']
    simpa using reconA_range' e a (max e.length a.length) 0
      (by simp [Nat.le_max_left]) (by simp)
  · show (((List.range (max e.length a.length)).map (chunkAt e a)).flatMap
      chunkLinesB) = a
    rw [List.range_eq_range']
    simpa using reconB_range' e a (max e.length a.length) 0
      (by simp [Nat.le_max_right]) (by simp)
  · intro i h
    have hlen : (simpleDiff e a).Chunks.length = max e.length a.length := by
      simp [simpleDiff]
    have hi : i < max e.length a.length := hlen ▸ h
    have hget : (simpleDiff e a).Chunks[i] = chunkAt e a i := by
      simp [simpleDiff]
    have htake : (simpleDiff e a).Chunks.take i
        = (List.range' 0 i).map (chunkAt e a) := by
      show ((List.range (max e.length a.length)).map (chunkAt e a)).take i
        = (List.range' 0 i).map (chunkAt e a)
      rw [← List.map_take, List.take_range]
      have hmin : min i (max e.length a.length) = i := by omega
      rw [hmin, List.range_eq_range']
    constructor
    · intro hca
      rw [hget] at hca ⊢
      obtain ⟨hie, hsa⟩ := chunkAt_countA_pos hca
      rw [hsa, htake, flatMapA_range' e a i 0 (by omega)]
      simp
    · intro hcb
      rw [hget] at hcb ⊢
      obtain ⟨hia, hsb⟩ := chunkAt_countB_pos hi hcb
      rw [hsb, htake, flatMapB_range' e a i 0 (by omega)]
      simp

/-- C9: rendering the diff of any byte sequence against itself yields the
empty string: diffing identical inputs produces an equal diff, and formatting
an equal diff returns the empty string, for every rendering option set. -/
theorem c9_render_diff_self (opts : DiffOptions) (X : List Char) :
    Format opts (diffOf opts X X) = "" := by
  have h : (diffOf opts X X).Equal = true := by
    unfold diffOf myersDiff
    cases opts.Algorithm <;> exact simpleDiff_self_equal _
  simp [Format, h]

/-! ### Comparator and manager lemmas and claim theorems -/

theorem charListLt_asymm : ∀ (a b : List Char),
    charListLt a b = true → charListLt b a = false := by
  intro a
  induction a with
  | nil =>
    intro b h
    cases b with
    | nil => simp [charListLt] at h
    | cons y ys => simp [charListLt]
  | cons x xs ih =>
    intro b h
    cases b with
    | nil => simp [charListLt] at h
    | cons y ys =>
      simp only [charListLt] at h ⊢
      split_ifs at h ⊢ <;>
        first | rfl | omega | (exact ih ys h) | (simp at h)

theorem charListLt_neg_trans : ∀ (a b c : List Char),
    charListLt b a = false → charListLt c b = false → charListLt c a = false := by
  intro a
  induction a with
  | nil =>
    intro b c _ _
    cases c <;> rfl
  | cons x xs ih =>
    intro b c h1 h2
    cases c with
    | nil =>
      cases b with
      | nil => simp [charListLt] at h1
      | cons y ys => simp [charListLt] at h2
    | cons z zs =>
      cases b with
      | nil => simp [charListLt] at h1
      | cons y ys =>
        simp only [charListLt] at h1 h2 ⊢
        split_ifs at h1 h2 ⊢ <;>
          first | rfl | omega | (exact ih ys zs h1 h2) | (simp at h1) | (simp at h2)

theorem charListLt_conn : ∀ (a b : List Char),
    charListLt a b = false → charListLt b a = false → a = b := by
  intro a
  induction a with
  | nil =>
    intro b h1 _
    cases b with
    | nil => rfl
    | cons y ys => simp [charListLt] at h1
  | cons x xs ih =>
    intro b h1 h2
    cases b with
    | nil => simp [charListLt] at h2
    | cons y ys =>
      simp only [charListLt] at h1 h2
      split_ifs at h1 h2 <;>
        first
          | omega
          | (simp at h1)
          | (simp at h2)
          | (have hx : x = y := by
               have hn : x.toNat = y.toNat := by omega
               rw [← Char.ofNat_toNat x, hn, Char.ofNat_toNat]
             rw [hx, ih ys h1 h2])

theorem goStrLt_conn {a b : String} (h1 : goStrLt a b = false)
    (h2 : goStrLt b a = false) : a = b := by
  apply String.ext
  exact charListLt_conn a.toList b.toList h1 h2

theorem reprLE_total : ∀ a b : JValue, reprLE a b ∨ reprLE b a := by
  intro a b
  unfold reprLE
  cases h : charListLt (goFormat b).toList (goFormat a).toList with
  | false => exact Or.inl h
  | true => exact Or.inr (charListLt_asymm _ _ h)

theorem reprLE_trans : ∀ a b c : JValue, reprLE a b → reprLE b c → reprLE a c := by
  intro a b c h1 h2
  exact charListLt_neg_trans _ _ _ h1 h2

theorem reprLE_antisymm {a b : JValue} (h1 : reprLE a b) (h2 : reprLE b a) :
    goFormat a = goFormat b :=
  goStrLt_conn h2 h1


theorem JValue.myInduction (motive : JValue → Prop)
    (hnull : motive JValue.null)
    (hbool : ∀ b, motive (JValue.bool b))
    (hnum : ∀ n, motive (JValue.num n))
    (hstr : ∀ s, motive (JValue.str s))
    (harr : ∀ xs, (∀ x, x ∈ xs → motive x) → motive (JValue.arr xs))
    (hobj : ∀ fs, (∀ kv, kv ∈ fs → motive kv.2) → motive (JValue.obj fs)) :
    ∀ v, motive v
  | JValue.null => hnull
  | JValue.bool b => hbool b
  | JValue.num n => hnum n
  | JValue.str s => hstr s
  | JValue.arr xs => harr xs (fun x hx =>
      JValue.myInduction motive hnull hbool hnum hstr harr hobj x)
  | JValue.obj fs => hobj fs (fun kv hkv =>
      JValue.myInduction motive hnull hbool hnum hstr harr hobj kv.2)
termination_by v => sizeOf v
decreasing_by
  · have h1 := List.sizeOf_lt_of_mem hx
    simp only [JValue.arr.sizeOf_spec]
    omega
  · have h1 := List.sizeOf_lt_of_mem hkv
    rcases kv with ⟨k, v2⟩
    simp only [JValue.obj.sizeOf_spec, Prod.mk.sizeOf_spec] at h1 ⊢
    omega

theorem deepEqual_iff : ∀ a b, deepEqual a b = true ↔ a = b := by
  intro a
  induction a using JValue.myInduction with
  | hnull => intro b; cases b <;> simp [deepEqual]
  | hbool x => intro b; cases b <;> simp [deepEqual]
  | hnum x => intro b; cases b <;> simp [deepEqual]
  | hstr x => intro b; cases b <;> simp [deepEqual]
  | harr xs ih =>
    intro b
    cases b with
    | arr ys =>
      simp only [deepEqual, JValue.arr.injEq]
      induction xs generalizing ys with
      | nil => cases ys <;> simp [deepEqualList]
      | cons x xs ihl =>
        cases ys with
        | nil => simp [deepEqualList]
        | cons y ys =>
          simp only [deepEqualList, Bool.and_eq_true, List.cons.injEq]
          rw [ih x (by simp), ihl (fun z hz => ih z (by simp [hz])) ys]
    | null => simp [deepEqual]
    | bool _ => simp [deepEqual]
    | num _ => simp [deepEqual]
    | str _ => simp [deepEqual]
    | obj _ => simp [deepEqual]
  | hobj fs ih =>
    intro b
    cases b with
    | obj gs =>
      simp only [deepEqual, JValue.obj.injEq]
      induction fs generalizing gs with
      | nil => cases gs <;> simp [deepEqualFields]
      | cons kv fs ihl =>
        cases gs with
        | nil => rcases kv with ⟨k, v⟩; simp [deepEqualFields]
        | cons kw gs =>
          rcases kv with ⟨k, v⟩
          rcases kw with ⟨k2, v2⟩
          simp only [deepEqualFields, Bool.and_eq_true, List.cons.injEq, beq_iff_eq,
            Prod.mk.injEq]
          rw [ih (k, v) (by simp)]
          rw [ihl (fun z hz => ih z (by simp [hz])) gs]
    | null => simp [deepEqual]
    | bool _ => simp [deepEqual]
    | num _ => simp [deepEqual]
    | str _ => simp [deepEqual]
    | arr _ => simp [deepEqual]

theorem normalizeElems_eq_map (opts : COptions) (l : List JValue) :
    normalizeElems opts l = l.map (normalizeValue opts) := by
  induction l with
  | nil => simp [normalizeElems]
  | cons x xs ih => simp [normalizeElems, ih]

theorem normalizeString_idem (opts : COptions) (s : String) :
    normalizeString opts (normalizeString opts s) = normalizeString opts s := by
  unfold normalizeString
  rcases h : opts.IgnoreWhitespace with _ | _
  · simp [h]
  · simp only [h, if_true]
    have ht : (String.mk (preprocessChars s.toList)).toList
        = preprocessChars s.toList := rfl
    rw [ht, preprocessChars_idem]

theorem normalizeElems_eq_self {opts : COptions} {l : List JValue}
    (hl : ∀ z ∈ l, normalizeValue opts z = z) : normalizeElems opts l = l := by
  induction l with
  | nil => simp [normalizeElems]
  | cons z zs ihz =>
    simp only [normalizeElems, List.cons.injEq]
    exact ⟨hl z (by simp), ihz (fun w hw => hl w (by simp [hw]))⟩

theorem normalizeValue_idem (opts : COptions) :
    ∀ v, normalizeValue opts (normalizeValue opts v) = normalizeValue opts v := by
  intro v
  induction v using JValue.myInduction with
  | hnull => simp [normalizeValue]
  | hbool b => simp [normalizeValue]
  | hnum n => simp [normalizeValue]
  | hstr s => simp [normalizeValue, normalizeString_idem]
  | harr xs ih =>
    have hnorm : ∀ z ∈ normalizeElems opts xs, normalizeValue opts z = z := by
      intro z hz
      rw [normalizeElems_eq_map] at hz
      obtain ⟨y, hy, rfl⟩ := List.mem_map.mp hz
      exact ih y hy
    rcases hio : opts.IgnoreOrder with _ | _
    · simp only [normalizeValue, hio, Bool.false_eq_true, if_false]
      rw [normalizeElems_eq_self hnorm]
    · simp only [normalizeValue, hio, if_true]
      have hsortmem : ∀ z ∈ List.insertionSort reprLE (normalizeElems opts xs),
          normalizeValue opts z = z := by
        intro z hz
        exact hnorm z ((List.perm_insertionSort reprLE _).mem_iff.mp hz)
      rw [normalizeElems_eq_self hsortmem]
      have hs := @List.sorted_insertionSort JValue reprLE _ ⟨reprLE_total⟩
        ⟨reprLE_trans⟩ (normalizeElems opts xs)
      rw [List.Sorted.insertionSort_eq hs]
  | hobj fs ih =>
    have key : ∀ l : List (String × JValue),
        (∀ kv ∈ l, normalizeValue opts (normalizeValue opts kv.2)
          = normalizeValue opts kv.2) →
        normalizeObject opts (normalizeObject opts l) = normalizeObject opts l := by
      intro l hl
      induction l with
      | nil => simp [normalizeObject]
      | cons kv rest ihr =>
        rcases kv with ⟨k, v⟩
        rcases hk : shouldIgnoreField opts k with _ | _
        · simp only [normalizeObject, hk, Bool.false_eq_true, if_false,
            List.cons.injEq, Prod.mk.injEq]
          exact ⟨⟨trivial, hl (k, v) (by simp)⟩,
            ihr (fun w hw => hl w (by simp [hw]))⟩
        · simp only [normalizeObject, hk, if_true]
          exact ihr (fun w hw => hl w (by simp [hw]))
    simp only [normalizeValue, JValue.obj.injEq]
    exact key fs (fun kv hkv => ih kv hkv)

theorem normalizeValue_id :
    ∀ v, normalizeValue ⟨false, false, none, []⟩ v = v := by
  intro v
  induction v using JValue.myInduction with
  | hnull => simp [normalizeValue]
  | hbool b => simp [normalizeValue]
  | hnum n => simp [normalizeValue]
  | hstr s => simp [normalizeValue, normalizeString]
  | harr xs ih =>
    simp only [normalizeValue, JValue.arr.injEq, Bool.false_eq_true, if_false]
    exact normalizeElems_eq_self ih
  | hobj fs ih =>
    simp only [normalizeValue, JValue.obj.injEq]
    induction fs with
    | nil => simp [normalizeObject]
    | cons kv rest ihr =>
      rcases kv with ⟨k, v⟩
      have hk : shouldIgnoreField ⟨false, false, none, []⟩ k = false := rfl
      simp only [normalizeObject, hk, Bool.false_eq_true, if_false,
        List.cons.injEq, Prod.mk.injEq]
      exact ⟨⟨trivial, ih (k, v) (by simp)⟩,
        ihr (fun w hw => ih w (by simp [hw]))⟩

theorem sorted_perm_nodup_eq : ∀ (l1 l2 : List JValue),
    List.Sorted reprLE l1 → List.Sorted reprLE l2 → l1.Perm l2 →
    (l1.map goFormat).Nodup → l1 = l2 := by
  intro l1
  induction l1 with
  | nil =>
    intro l2 _ _ hp _
    exact hp.nil_eq
  | cons x t1 ih =>
    intro l2 hs1 hs2 hp hnd
    cases l2 with
    | nil => simp [List.Perm.eq_nil hp] at *
    | cons y t2 =>
      by_cases hxy : x = y
      · subst hxy
        have hp' : t1.Perm t2 := hp.cons_inv
        rw [ih t2 hs1.of_cons hs2.of_cons hp'
          (by rw [List.map_cons, List.nodup_cons] at hnd; exact hnd.2)]
      · exfalso
        have hx2 : x ∈ t2 := by
          have hx : x ∈ y :: t2 := hp.mem_iff.mp (by simp)
          rcases List.mem_cons.mp hx with h | h
          · exact absurd h hxy
          · exact h
        have hy1 : y ∈ t1 := by
          have hy : y ∈ x :: t1 := hp.symm.mem_iff.mp (by simp)
          rcases List.mem_cons.mp hy with h | h
          · exact absurd h.symm hxy
          · exact h
        have h1 : reprLE x y := (List.sorted_cons.mp hs1).1 y hy1
        have h2 : reprLE y x := (List.sorted_cons.mp hs2).1 x hx2
        have hfeq : goFormat x = goFormat y := reprLE_antisymm h1 h2
        rw [List.map_cons, List.nodup_cons] at hnd
        exact hnd.1 (by rw [hfeq]; exact List.mem_map_of_mem goFormat hy1)

/-- C3: normalization is idempotent: for every JSON-like value and every
configuration of options (excluded fields, order-insensitivity, whitespace
collapse), normalizing twice yields the same value as normalizing once. -/
theorem c3_normalize_idem (opts : COptions) (v : JValue) :
    normalizeValue opts (normalizeValue opts v) = normalizeValue opts v :=
  normalizeValue_idem opts v

/-- C2 (counterexample): with order-insensitivity enabled, comparing the
array `[1, "1"]` against its permutation `["1", 1]` yields a NOT-equal
verdict, because the sort key `fmt.Sprintf("%v", ·)` renders the number `1`
and the string `"1"` identically and so cannot merge the two orders. -/
theorem c2_counterexample :
    ([JValue.num 1, JValue.str "1"].Perm [JValue.str "1", JValue.num 1]) ∧
    jsonVerdict ⟨true, false, none, []⟩ (JValue.arr [JValue.num 1, JValue.str "1"])
      (JValue.arr [JValue.str "1", JValue.num 1]) = false :=
  ⟨List.Perm.swap (JValue.str "1") (JValue.num 1) [], by decide⟩

/-- C2 (amended): for every array `A` and permutation `B` of `A`, if the
`%v` renderings of the normalized elements of `A` are pairwise distinct,
comparison under order-insensitive mode is equal; under order-sensitive mode
(with otherwise-default options) the verdict is equal iff `B` is the
identity permutation, i.e. `B = A` as a sequence. -/
theorem c2_amended (A B : List JValue) (hperm : A.Perm B) :
    (((normalizeElems ⟨true, false, none, []⟩ A).map goFormat).Nodup →
      jsonVerdict ⟨true, false, none, []⟩ (JValue.arr A) (JValue.arr B) = true) ∧
    (jsonVerdict ⟨false, false, none, []⟩ (JValue.arr A) (JValue.arr B) = true
      ↔ A = B) := by
  constructor
  · intro hnd
    have hpe : (normalizeElems ⟨true, false, none, []⟩ A).Perm
        (normalizeElems ⟨true, false, none, []⟩ B) := by
      rw [normalizeElems_eq_map, normalizeElems_eq_map]
      exact hperm.map _
    have hps : (List.insertionSort reprLE (normalizeElems ⟨true, false, none, []⟩ A)).Perm
        (List.insertionSort reprLE (normalizeElems ⟨true, false, none, []⟩ B)) :=
      ((List.perm_insertionSort reprLE _).trans hpe).trans
        (List.perm_insertionSort reprLE _).symm
    have hnds : ((List.insertionSort reprLE
        (normalizeElems ⟨true, false, none, []⟩ A)).map goFormat).Nodup :=
      (((List.perm_insertionSort reprLE _).map goFormat).nodup_iff).mpr hnd
    have heq : List.insertionSort reprLE (normalizeElems ⟨true, false, none, []⟩ A)
        = List.insertionSort reprLE (normalizeElems ⟨true, false, none, []⟩ B) :=
      sorted_perm_nodup_eq _ _
        (@List.sorted_insertionSort JValue reprLE _ ⟨reprLE_total⟩ ⟨reprLE_trans⟩ _)
        (@List.sorted_insertionSort JValue reprLE _ ⟨reprLE_total⟩ ⟨reprLE_trans⟩ _)
        hps hnds
    simp only [jsonVerdict, normalizeValue, if_true]
    rw [heq]
    exact (deepEqual_iff _ _).mpr rfl
  · simp only [jsonVerdict, normalizeValue_id]
    rw [deepEqual_iff]
    simp

/-- Witness for C2 at `A = [1, 2]`, `B = [2, 1]`. -/
theorem c2_witness :
    jsonVerdict ⟨true, false, none, []⟩ (JValue.arr [JValue.num 1, JValue.num 2])
      (JValue.arr [JValue.num 2, JValue.num 1]) = true ∧
    (jsonVerdict ⟨false, false, none, []⟩ (JValue.arr [JValue.num 1, JValue.num 2])
      (JValue.arr [JValue.num 2, JValue.num 1]) = true
      ↔ [JValue.num 1, JValue.num 2] = [JValue.num 2, JValue.num 1]) :=
  And.intro
    ((c2_amended [JValue.num 1, JValue.num 2] [JValue.num 2, JValue.num 1]
      (List.Perm.swap (JValue.num 2) (JValue.num 1) [])).1 (by decide))
    ((c2_amended [JValue.num 1, JValue.num 2] [JValue.num 2, JValue.num 1]
      (List.Perm.swap (JValue.num 2) (JValue.num 1) [])).2)

theorem normalizeObject_append (opts : COptions) (l1 l2 : List (String × JValue)) :
    normalizeObject opts (l1 ++ l2)
      = normalizeObject opts l1 ++ normalizeObject opts l2 := by
  induction l1 with
  | nil => simp [normalizeObject]
  | cons kv rest ih =>
    rcases kv with ⟨k, v⟩
    by_cases hk : shouldIgnoreField opts k = true
    · simp [normalizeObject, hk, ih]
    · simp only [Bool.not_eq_true] at hk
      simp [normalizeObject, hk, ih]

theorem normalizeValue_fill_congr (opts : COptions) : ∀ (C : JCtx) (u1 u2 : JValue),
    normalizeValue opts u1 = normalizeValue opts u2 →
    normalizeValue opts (C.fill u1) = normalizeValue opts (C.fill u2) := by
  intro C
  induction C with
  | hole => intro u1 u2 h; exact h
  | arrCtx b c a ihc =>
    intro u1 u2 h
    simp only [JCtx.fill, normalizeValue, JValue.arr.injEq]
    have he : normalizeElems opts (b ++ c.fill u1 :: a)
        = normalizeElems opts (b ++ c.fill u2 :: a) := by
      rw [normalizeElems_eq_map, normalizeElems_eq_map]
      simp only [List.map_append, List.map_cons]
      rw [ihc u1 u2 h]
    rw [he]
  | objCtx b k c a ihc =>
    intro u1 u2 h
    simp only [JCtx.fill, normalizeValue, JValue.obj.injEq]
    rw [normalizeObject_append, normalizeObject_append]
    by_cases hk : shouldIgnoreField opts k = true
    · simp [normalizeObject, hk]
    · simp only [Bool.not_eq_true] at hk
      simp [normalizeObject, hk, ihc u1 u2 h]

theorem normalizeObject_ignored (opts : COptions) {k : String}
    (hk : shouldIgnoreField opts k = true) (pre post : List (String × JValue))
    (v : JValue) :
    normalizeObject opts (pre ++ (k, v) :: post)
      = normalizeObject opts (pre ++ post) := by
  rw [normalizeObject_append, normalizeObject_append]
  simp [normalizeObject, hk]

/-- C5: for every object (at any nesting depth, expressed by a one-hole
context), every key in the configured excluded-field set and every pair of
values, the comparison verdict is unchanged whether the object maps the key
to the first value, to the second value, or omits it entirely. -/
theorem c5_field_exclusion (opts : COptions) (k : String)
    (hk : shouldIgnoreField opts k = true) (C : JCtx)
    (pre post : List (String × JValue)) (v1 v2 : JValue) (w : JValue) :
    (jsonVerdict opts (C.fill (JValue.obj (pre ++ (k, v1) :: post))) w
      = jsonVerdict opts (C.fill (JValue.obj (pre ++ post))) w) ∧
    (jsonVerdict opts (C.fill (JValue.obj (pre ++ (k, v2) :: post))) w
      = jsonVerdict opts (C.fill (JValue.obj (pre ++ post))) w) ∧
    (jsonVerdict opts w (C.fill (JValue.obj (pre ++ (k, v1) :: post)))
      = jsonVerdict opts w (C.fill (JValue.obj (pre ++ post)))) := by
  have base : ∀ v : JValue, normalizeValue opts (JValue.obj (pre ++ (k, v) :: post))
      = normalizeValue opts (JValue.obj (pre ++ post)) := by
    intro v
    simp only [normalizeValue, JValue.obj.injEq]
    exact normalizeObject_ignored opts hk pre post v
  have hfill : ∀ v, normalizeValue opts (C.fill (JValue.obj (pre ++ (k, v) :: post)))
      = normalizeValue opts (C.fill (JValue.obj (pre ++ post))) :=
    fun v => normalizeValue_fill_congr opts C _ _ (base v)
  unfold jsonVerdict
  rw [hfill v1, hfill v2]
  exact ⟨rfl, rfl, rfl⟩

/-- Witness for C5: excluding `ts` makes `{ts: "X", a: 1}` compare like
`{a: 1}`. -/
theorem c5_witness :
    shouldIgnoreField ⟨false, false, none, ["ts"]⟩ "ts" = true ∧
    jsonVerdict ⟨false, false, none, ["ts"]⟩
      (JValue.obj [("ts", JValue.str "X"), ("a", JValue.num 1)])
      (JValue.obj [("a", JValue.num 1)])
      = jsonVerdict ⟨false, false, none, ["ts"]⟩
        (JValue.obj [("a", JValue.num 1)]) (JValue.obj [("a", JValue.num 1)]) :=
  ⟨by decide,
    (c5_field_exclusion ⟨false, false, none, ["ts"]⟩ "ts" (by decide) JCtx.hole
      [] [("a", JValue.num 1)] (JValue.str "X") (JValue.str "Y")
      (JValue.obj [("a", JValue.num 1)])).1⟩

/-- C6: when both sides are detected as JSON-shaped but a side fails to
parse, `Compare` returns an unequal verdict whose diagnostic names the side
that failed to parse (`Compare` is a total function: it returns a verdict
for every pair of byte inputs by construction). -/
theorem c6_parse_failure (parse : List Char → Option JValue) (opts : COptions)
    (e a : List Char) (hc : opts.CustomCompareFunc = none)
    (he : isJSON e = true) (ha : isJSON a = true) :
    (parse e = none →
      Compare parse opts e a
        = { Equal := false, Details := "Failed to parse expected JSON" }) ∧
    (∀ v, parse e = some v → parse a = none →
      Compare parse opts e a
        = { Equal := false, Details := "Failed to parse actual JSON" }) := by
  obtain ⟨io, iw, cf, ifl⟩ := opts
  simp only at hc
  subst hc
  simp only [Compare, he, ha, Bool.and_self, if_true]
  constructor
  · intro hp
    simp [compareJSON, hp]
  · intro v hp hp2
    simp [compareJSON, hp, hp2]

/-- Witness for C6 with a parser that rejects everything and JSON-shaped
inputs. -/
theorem c6_witness :
    isJSON "\x7b".toList = true ∧
    Compare (fun _ => none) ⟨false, false, none, []⟩ "\x7b".toList "[".toList
      = { Equal := false, Details := "Failed to parse expected JSON" } :=
  ⟨by decide,
    (c6_parse_failure (fun _ => none) ⟨false, false, none, []⟩ "\x7b".toList "[".toList
      rfl (by decide) (by decide)).1 rfl⟩

/-- C8: whenever a custom comparison override is configured, `Compare`
invokes it on the raw inputs and returns its boolean verdict directly, for
every pair of inputs and every parser — the JSON and text paths are never
taken. -/
theorem c8_custom_override (parse : List Char → Option JValue) (opts : COptions)
    (f : List Char → List Char → Bool) (hf : opts.CustomCompareFunc = some f)
    (e a : List Char) :
    Compare parse opts e a
      = { Equal := f e a, Details := "Custom comparison function" } := by
  obtain ⟨io, iw, cf, ifl⟩ := opts
  simp only at hf
  subst hf
  simp [Compare]

/-- Witness for C8: a constant-false override decides the verdict even for
equal JSON-shaped inputs. -/
theorem c8_witness :
    Compare (fun _ => none) ⟨false, false, some (fun _ _ => false), []⟩
      "{}".toList "{}".toList
      = { Equal := false, Details := "Custom comparison function" } :=
  c8_custom_override (fun _ => none) ⟨false, false, some (fun _ _ => false), []⟩
    (fun _ _ => false) rfl "{}".toList "{}".toList

/-- C10: with no custom override, whenever at least one side trims to the
empty byte sequence (empty or all whitespace), `Compare` falls through to
the text path; in particular comparing two empty sequences yields an equal
verdict with the text-path diagnostic. -/
theorem c10_whitespace_text_path (parse : List Char → Option JValue)
    (opts : COptions) (e a : List Char) (hc : opts.CustomCompareFunc = none)
    (h : goTrim e = [] ∨ goTrim a = []) :
    Compare parse opts e a = compareText opts e a ∧
    (Compare parse opts [] []).Equal = true ∧
    (Compare parse opts [] []).Details = "Text comparison with preprocessing" := by
  obtain ⟨io, iw, cf, ifl⟩ := opts
  simp only at hc
  subst hc
  have hjson : (isJSON e && isJSON a) = false := by
    rcases h with h | h
    · have : isJSON e = false := by simp [isJSON, h]
      simp [this]
    · have : isJSON a = false := by simp [isJSON, h]
      simp [this]
  refine ⟨by simp [Compare, hjson], ?_, ?_⟩
  · have hj : isJSON ([] : List Char) = false := by decide
    simp [Compare, hj, compareText]
  · have hj : isJSON ([] : List Char) = false := by decide
    simp [Compare, hj, compareText]

/-- Witness for C10: an all-whitespace left side against a JSON-shaped
right side takes the text path, and empty-vs-empty is equal. -/
theorem c10_witness :
    goTrim "  ".toList = [] ∧
    Compare (fun _ => none) ⟨true, false, none, []⟩ "  ".toList "[1]".toList
      = compareText ⟨true, false, none, []⟩ "  ".toList "[1]".toList ∧
    (Compare (fun _ => none) ⟨true, false, none, []⟩ [] []).Equal = true :=
  ⟨by decide,
    (c10_whitespace_text_path (fun _ => none) ⟨true, false, none, []⟩
      "  ".toList "[1]".toList rfl (Or.inl (by decide))).1,
    (c10_whitespace_text_path (fun _ => none) ⟨true, false, none, []⟩
      "  ".toList "[1]".toList rfl (Or.inl (by decide))).2.1⟩


/-- C7 (counterexample): the default naming strategy is NOT injective over
identity triples: `(a.go, b, c_d)` and `(a.go, b_c, d)` generate the same
path `a_b_c_d.golden`. -/
theorem c7_counterexample :
    GenerateFilename "a.go".toList "b".toList "c_d".toList
      = GenerateFilename "a.go".toList "b_c".toList "d".toList ∧
    ¬ (("b".toList, "c_d".toList) = ("b_c".toList, "d".toList)) := by
  decide

theorem underscore_split : ∀ (n1 : List Char) {n2 rest1 rest2 : List Char},
    '_' ∉ n1 → '_' ∉ n2 → n1 ++ '_' :: rest1 = n2 ++ '_' :: rest2 →
    n1 = n2 ∧ rest1 = rest2 := by
  intro n1
  induction n1 with
  | nil =>
    intro n2 r1 r2 _ h2 heq
    cases n2 with
    | nil => simpa using heq
    | cons c cs =>
      simp only [List.nil_append, List.cons_append, List.cons.injEq] at heq
      exact absurd (List.mem_cons_self c cs) (heq.1 ▸ h2)
  | cons x xs ih =>
    intro n2 r1 r2 h1 h2 heq
    cases n2 with
    | nil =>
      simp only [List.cons_append, List.nil_append, List.cons.injEq] at heq
      exact absurd (List.mem_cons_self x xs) (heq.1.symm ▸ h1)
    | cons c cs =>
      simp only [List.cons_append, List.cons.injEq] at heq
      obtain ⟨hxc, hrest⟩ := heq
      have hx1 : '_' ∉ xs := fun hm => h1 (List.mem_cons_of_mem x hm)
      have hx2 : '_' ∉ cs := fun hm => h2 (List.mem_cons_of_mem c hm)
      obtain ⟨hh, ht⟩ := ih hx1 hx2 hrest
      exact ⟨by rw [hxc, hh], ht⟩

/-- C7 (amended): the default naming strategy is injective over identity
triples whose origin-file ends in `.go` and whose test-function and
artifact names contain no underscore (the separator). -/
theorem c7_injective_restricted (f1 t1 n1 f2 t2 n2 : List Char)
    (hf1 : goExt <:+ f1) (hf2 : goExt <:+ f2)
    (ht1 : '_' ∉ t1) (hn1 : '_' ∉ n1) (ht2 : '_' ∉ t2) (hn2 : '_' ∉ n2)
    (heq : GenerateFilename f1 t1 n1 = GenerateFilename f2 t2 n2) :
    f1 = f2 ∧ t1 = t2 ∧ n1 = n2 := by
  obtain ⟨g1, hg1⟩ := hf1
  obtain ⟨g2, hg2⟩ := hf2
  have htrim : ∀ (g f : List Char), g ++ goExt = f → trimSuffixGo f = g := by
    intro g f hg
    unfold trimSuffixGo
    rw [if_pos (by rw [List.isSuffixOf_iff_suffix]; exact ⟨g, hg⟩)]
    rw [← hg, List.length_append]
    have h3 : g.length + goExt.length - 3 = g.length := by simp [goExt]
    rw [h3, List.take_left]
  rw [GenerateFilename, GenerateFilename, htrim g1 f1 hg1, htrim g2 f2 hg2] at heq
  have hrev := congrArg List.reverse heq
  simp only [List.reverse_append, List.reverse_cons, List.append_assoc,
    List.singleton_append] at hrev
  have hcore := List.append_cancel_left hrev
  have hnm1 : '_' ∉ n1.reverse := fun hm => hn1 (List.mem_reverse.mp hm)
  have hnm2 : '_' ∉ n2.reverse := fun hm => hn2 (List.mem_reverse.mp hm)
  obtain ⟨hn, hrest⟩ := underscore_split n1.reverse hnm1 hnm2 hcore
  simp only [List.append_eq, List.append_assoc, List.singleton_append] at hrest
  have htm1 : '_' ∉ t1.reverse := fun hm => ht1 (List.mem_reverse.mp hm)
  have htm2 : '_' ∉ t2.reverse := fun hm => ht2 (List.mem_reverse.mp hm)
  obtain ⟨ht, hg⟩ := underscore_split t1.reverse htm1 htm2 hrest
  refine ⟨?_, List.reverse_injective ht, List.reverse_injective hn⟩
  rw [← hg1, ← hg2, List.reverse_injective hg]

/-- Witness for C7 at the triple `(a.go, b, c)`. -/
theorem c7_witness :
    (goExt <:+ "a.go".toList) ∧ ('_' ∉ "b".toList) ∧ ('_' ∉ "c".toList) ∧
    ("a.go".toList = "a.go".toList ∧ "b".toList = "b".toList ∧
      "c".toList = "c".toList) :=
  ⟨by decide, by decide, by decide,
    c7_injective_restricted "a.go".toList "b".toList "c".toList
      "a.go".toList "b".toList "c".toList (by decide) (by decide)
      (by decide) (by decide) (by decide) (by decide) rfl⟩

/-- Witness for C4 at expected `["a"]`, actual `["b", "c"]` (the chunk at
index 1 is the Insert chunk, whose recorded `StartB` is the number of
actual-side lines re-derived from the chunks before it). -/
theorem c4_witness :
    ((simpleDiff ["a"] ["b", "c"]).Chunks.flatMap chunkLinesA = ["a"]) ∧
    ((simpleDiff ["a"] ["b", "c"]).Chunks.flatMap chunkLinesB = ["b", "c"]) ∧
    (0 < ((simpleDiff ["a"] ["b", "c"]).Chunks.get ⟨1, by decide⟩).CountB →
      ((simpleDiff ["a"] ["b", "c"]).Chunks.get ⟨1, by decide⟩).StartB
        = (((simpleDiff ["a"] ["b", "c"]).Chunks.take 1).flatMap chunkLinesB).length) :=
  ⟨(c4_simpleDiff_reconstruction ["a"] ["b", "c"]).1,
   (c4_simpleDiff_reconstruction ["a"] ["b", "c"]).2.1,
   fun hb => ((c4_simpleDiff_reconstruction ["a"] ["b", "c"]).2.2 1 (by decide)).2 hb⟩
